import Mathlib

/-!
Verification development for the CCG (code/call-graph) subsystem of
`BE/py_modules/codeops.py`: symbol extraction (`_py_symbols_regex`),
graph building (`parse_python_and_jac`), query (`query_calls`),
diagram rendering (`_mermaid_from_ccg`), document assembly
(`render_markdown`) and file gathering (`_gather_files` with `IGNORES`).

The Python regexes are embedded as character-level scanners over
`List Char` that reproduce `re.findall` semantics (left-to-right,
non-overlapping, leftmost match) for the three patterns used by the
source:

  * calls:   `([A-Za-z_][A-Za-z0-9_]*)\s*\(`            (no anchor)
  * classes: `^\s*class\s+([A-Za-z_][A-Za-z0-9_]*)`     (re.M)
  * defs:    `^\s*def\s+([A-Za-z_][A-Za-z0-9_]*)`       (re.M)

Since the character classes involved (whitespace, identifier characters,
the literal keyword letters, `(`) are pairwise disjoint where it matters,
the regex engine never backtracks on these patterns and each findall run
is equivalent to a single left-to-right pass of a small state machine;
the scanners below implement those state machines.  `\s` is modelled on
its ASCII fragment (Python also accepts some non-ASCII Unicode spaces).
-/

/-- ASCII fragment of Python's `\s` class: space, tab, newline, carriage
return, vertical tab, form feed. -/
def pyWhite (c : Char) : Bool :=
  c = ' ' || c = '\t' || c = '\n' || c = '\r' || c = '\x0b' || c = '\x0c'

/-- The regex class `[A-Za-z_]` (first character of an identifier). -/
def identStart (c : Char) : Bool :=
  (c.isUpper || c.isLower || c = '_')

/-- The regex class `[A-Za-z0-9_]` (subsequent identifier characters). -/
def identChar (c : Char) : Bool :=
  identStart c || c.isDigit

/-- First-occurrence deduplication with an accumulator of already seen
elements.  `dedupAux [] l` models Python's `list(set(l))`: the same
elements, each exactly once.  (CPython's set iteration order is
unspecified; we fix first-occurrence order.  No theorem below depends on
the particular order chosen.) -/
def dedupAux {α : Type} [DecidableEq α] (seen : List α) : List α → List α
  | [] => []
  | x :: xs => if x ∈ seen then dedupAux seen xs else x :: dedupAux (x :: seen) xs

/-- Models Python's `list(set(l))`. -/
def pyListSet {α : Type} [DecidableEq α] (l : List α) : List α := dedupAux [] l

/-! ### The call-reference scanner: `re.findall(r'([A-Za-z_][A-Za-z0-9_]*)\s*\(', src)` -/

/-- State of the call scanner: outside any candidate match, inside an
identifier run, or in the `\s*` gap between an identifier and a
potential `(`. The payload is the identifier accumulated so far. -/
inductive CallSt : Type where
  | start : CallSt
  | ident (acc : List Char) : CallSt
  | afterIdent (acc : List Char) : CallSt
deriving Repr, DecidableEq

/-- One step of the call scanner: next state, plus the captured group of
a match that completes on this character (a match completes exactly when
`(` is read right after the identifier or its trailing whitespace). -/
def callNext : CallSt → Char → CallSt × Option (List Char)
  | .start, c => (if identStart c then .ident [c] else .start, none)
  | .ident acc, c =>
    if identChar c then (.ident (acc ++ [c]), none)
    else if c = '(' then (.start, some acc)
    else if pyWhite c then (.afterIdent acc, none)
    else (.start, none)
  | .afterIdent acc, c =>
    if pyWhite c then (.afterIdent acc, none)
    else if c = '(' then (.start, some acc)
    else if identStart c then (.ident [c], none)
    else (.start, none)

/-- All captured groups of the call pattern, in scan order.  At end of
input a pending identifier is not a match (the pattern requires `(`). -/
def scanCallsFrom (st : CallSt) : List Char → List (List Char)
  | [] => []
  | c :: rest =>
    match callNext st c with
    | (st', some out) => out :: scanCallsFrom st' rest
    | (st', none) => scanCallsFrom st' rest

/-! ### The declaration scanner: `re.findall(r'^\s*KW\s+([A-Za-z_][A-Za-z0-9_]*)', src, re.M)` -/

/-- State of the declaration scanner.  `ws` is "at a line start (or in
the anchored `\s*`, which may span blank lines)"; `kw rest` is "inside
the keyword with `rest` still to be matched"; `postKw` is "keyword
matched, at least one whitespace required"; `preIdent` is "inside the
`\s+` (which may span lines), awaiting an identifier start"; `ident acc`
is "capturing the identifier"; `skip` is "the current line cannot match;
wait for the next line start". -/
inductive DeclSt : Type where
  | ws : DeclSt
  | kw (rest : List Char) : DeclSt
  | postKw : DeclSt
  | preIdent : DeclSt
  | ident (acc : List Char) : DeclSt
  | skip : DeclSt
deriving Repr, DecidableEq

/-- After a failed attempt (or a completed match), the scan continues at
the next character: a new `^` anchor becomes available only after a
newline. -/
def midSt (c : Char) : DeclSt := if c = '\n' then .ws else .skip

/-- Enter the keyword-matching state with `ks` characters left (or the
post-keyword state if the keyword is fully matched). -/
def kwNext (ks : List Char) : DeclSt :=
  match ks with
  | [] => .postKw
  | _ :: _ => .kw ks

/-- One step of the declaration scanner for keyword `kw` (always
`"class".data` or `"def".data` here, hence nonempty). -/
def declNext (kw : List Char) : DeclSt → Char → DeclSt × Option (List Char)
  | .ws, c =>
    if pyWhite c then (.ws, none)
    else
      match kw with
      | [] => (midSt c, none)
      | k :: ks => if c = k then (kwNext ks, none) else (midSt c, none)
  | .kw r, c =>
    match r with
    | [] => (midSt c, none)
    | k :: ks => if c = k then (kwNext ks, none) else (midSt c, none)
  | .postKw, c => if pyWhite c then (.preIdent, none) else (midSt c, none)
  | .preIdent, c =>
    if pyWhite c then (.preIdent, none)
    else if identStart c then (.ident [c], none)
    else (midSt c, none)
  | .ident acc, c =>
    if identChar c then (.ident (acc ++ [c]), none) else (midSt c, some acc)
  | .skip, c => (midSt c, none)

/-- All captured groups of the anchored declaration pattern, in scan
order.  At end of input a pending identifier is a complete match (the
pattern ends with the capture group). -/
def scanDeclsFrom (kw : List Char) (st : DeclSt) : List Char → List (List Char)
  | [] => (match st with | .ident acc => [acc] | _ => [])
  | c :: rest =>
    match declNext kw st c with
    | (st', some out) => out :: scanDeclsFrom kw st' rest
    | (st', none) => scanDeclsFrom kw st' rest

example : scanCallsFrom .start "def bar(): foo()".data = ["bar".data, "foo".data] := by decide
example : scanDeclsFrom "def".data .ws "def bar(): foo()".data = ["bar".data] := by decide
example : scanDeclsFrom "class".data .ws "def bar(): foo()\nclass Baz: pass".data
    = ["Baz".data] := by decide
example : scanDeclsFrom "def".data .ws "def \ndef f(): pass".data = ["def".data] := by decide
example : scanCallsFrom .start "def \ndef f(): pass".data = ["f".data] := by decide

/-! ### Symbol extraction: `_py_symbols_regex` -/

/-- Result of `_py_symbols_regex(src, path)`. -/
structure PyInfo : Type where
  path : String
  classes : List String
  functions : List String
  calls : List String
deriving Repr, DecidableEq

/-- Embedding of `_py_symbols_regex`: run the three findall scans and
apply `list(set(...))` to each result. -/
def pySymbolsRegex (src : String) (path : String) : PyInfo :=
  { path := path
    classes := pyListSet ((scanDeclsFrom "class".data .ws src.data).map fun l => String.mk l)
    functions := pyListSet ((scanDeclsFrom "def".data .ws src.data).map fun l => String.mk l)
    calls := pyListSet ((scanCallsFrom .start src.data).map fun l => String.mk l) }

/-! ### The graph: nodes, edges, builder (`parse_python_and_jac`) -/

/-- A graph node: `{"id": .., "kind": .., "name": .., "path": ..}`. -/
structure Node : Type where
  id : String
  kind : String
  name : String
  path : String
deriving Repr, DecidableEq

/-- The three edge lists, keyed as in the source dict
`{"calls": [], "inherits": [], "contains": []}`; each edge is a
`[source, destination]` pair of strings. -/
structure Edges : Type where
  calls : List (String × String)
  inherits : List (String × String)
  contains : List (String × String)
deriving Repr, DecidableEq

/-- The CCG artifact `{"nodes": .., "edges": ..}`. -/
structure CCG : Type where
  nodes : List Node
  edges : Edges
deriving Repr, DecidableEq

/-- The empty CCG (also models the falsy `{}` payload default). -/
def emptyCCG : CCG := ⟨[], ⟨[], [], []⟩⟩

/-- The characters after the last `/` of the list. -/
def lastComponentAux (cur : List Char) : List Char → List Char
  | [] => cur
  | c :: rest => if c = '/' then lastComponentAux [] rest else lastComponentAux (cur ++ [c]) rest

/-- Embeds `pathlib.Path(p).name`: the last `/`-separated component.  (For the
paths produced by `os.path.join` there is no trailing separator, so the
pathlib corner case `Path("a/").name = "a"` never arises.) -/
def pathBaseName (p : String) : String := String.mk (lastComponentAux [] p.data)

/-- The nodes of the accumulated list that satisfy
`n["path"]==p and n["kind"]=="function"` (the inner loop of the calls
pass of `parse_python_and_jac`). -/
def functionsOfFile (nodes : List Node) (p : String) : List Node :=
  nodes.filter fun n => n.path = p && n.kind = "function"

/-- The per-file body of `parse_python_and_jac`'s main loop: append the
module node, one class node and `contains` edge per extracted class, one
function node and `contains` edge per extracted function, then one
`calls` edge from every function node recorded for this path to
`sym::callee` for every extracted call reference. -/
def parseStep (acc : CCG) (f : String × String) : CCG :=
  let p := f.1
  let info := pySymbolsRegex f.2 p
  let modId := "module::" ++ p
  let nodes :=
    acc.nodes ++ [Node.mk modId "module" (pathBaseName p) p]
      ++ (info.classes.map fun cls => Node.mk ("class::" ++ p ++ "::" ++ cls) "class" cls p)
      ++ (info.functions.map fun fn => Node.mk ("func::" ++ p ++ "::" ++ fn) "function" fn p)
  let contains :=
    acc.edges.contains
      ++ (info.classes.map fun cls => ("module::" ++ p, "class::" ++ p ++ "::" ++ cls))
      ++ (info.functions.map fun fn => ("module::" ++ p, "func::" ++ p ++ "::" ++ fn))
  let calls :=
    acc.edges.calls
      ++ (info.calls.flatMap fun callee =>
            (functionsOfFile nodes p).map fun n => (n.id, "sym::" ++ callee))
  { nodes := nodes
    edges := { calls := calls, inherits := acc.edges.inherits, contains := contains } }

/-- Embedding of `parse_python_and_jac` over an already gathered and
read list of `(path, text)` files (file reading is best-effort in the
source; unreadable files are skipped before this point). -/
def parsePythonAndJac (files : List (String × String)) : CCG :=
  files.foldl parseStep emptyCCG

/-! ### Query: `query_calls` -/

/-- The result-accumulation loop of `query_calls`:
`for s, d in edges: if d == tgt: res.append(s)`. -/
def queryCallsLoop (tgt : String) : List (String × String) → List String
  | [] => []
  | e :: rest =>
    if e.2 = tgt then e.1 :: queryCallsLoop tgt rest else queryCallsLoop tgt rest

/-- Embedding of `query_calls` against an explicit last-built-graph
slot (`_last_ccg`), which is `none` before any build. -/
def queryCalls (last : Option CCG) (target : String) : List String :=
  match last with
  | none => []
  | some g => queryCallsLoop ("sym::" ++ target) g.edges.calls

/-! ### The process-wide `_last_ccg` slot, in state-passing form -/

/-- Build operation `parse_python_and_jac`: computes the graph, writes it to the slot,
and returns it. -/
def buildOp (_st : Option CCG) (files : List (String × String)) : CCG × Option CCG :=
  let g := parsePythonAndJac files
  (g, some g)

/-- Query operation: `query_calls` only reads the slot. -/
def queryOp (st : Option CCG) (target : String) : List String × Option CCG :=
  (queryCalls st target, st)

example :
    parsePythonAndJac [("r/a.py", "def bar(): foo()\nclass Baz: pass"), ("r/b.py", "")]
      = { nodes :=
            [⟨"module::r/a.py", "module", "a.py", "r/a.py"⟩,
             ⟨"class::r/a.py::Baz", "class", "Baz", "r/a.py"⟩,
             ⟨"func::r/a.py::bar", "function", "bar", "r/a.py"⟩,
             ⟨"module::r/b.py", "module", "b.py", "r/b.py"⟩],
          edges :=
            { calls := [("func::r/a.py::bar", "sym::bar"), ("func::r/a.py::bar", "sym::foo")],
              inherits := [],
              contains := [("module::r/a.py", "class::r/a.py::Baz"),
                           ("module::r/a.py", "func::r/a.py::bar")] } } := by decide

/-! ### Closed forms for the builder -/

/-- The nodes contributed by one file, in order: module, classes,
functions. -/
def parsedNodes (f : String × String) : List Node :=
  let p := f.1
  let info := pySymbolsRegex f.2 p
  Node.mk ("module::" ++ p) "module" (pathBaseName p) p
    :: ((info.classes.map fun cls => Node.mk ("class::" ++ p ++ "::" ++ cls) "class" cls p)
        ++ (info.functions.map fun fn => Node.mk ("func::" ++ p ++ "::" ++ fn) "function" fn p))

/-- The `contains` edges contributed by one file. -/
def parsedContains (f : String × String) : List (String × String) :=
  let p := f.1
  let info := pySymbolsRegex f.2 p
  (info.classes.map fun cls => ("module::" ++ p, "class::" ++ p ++ "::" ++ cls))
    ++ (info.functions.map fun fn => ("module::" ++ p, "func::" ++ p ++ "::" ++ fn))

/-- The `calls` edges contributed by one file (when no other processed
file shares its path): one edge per (call reference, declared function)
pair, call reference outermost. -/
def parsedCalls (f : String × String) : List (String × String) :=
  let p := f.1
  let info := pySymbolsRegex f.2 p
  info.calls.flatMap fun callee =>
    info.functions.map fun fn => ("func::" ++ p ++ "::" ++ fn, "sym::" ++ callee)

theorem mem_dedupAux {α : Type} [DecidableEq α] (seen : List α) (l : List α) (a : α) :
    a ∈ dedupAux seen l ↔ a ∈ l ∧ a ∉ seen := by
  induction l generalizing seen with
  | nil => simp [dedupAux]
  | cons x xs ih =>
    by_cases hx : x ∈ seen
    · simp only [dedupAux, if_pos hx, ih, List.mem_cons]
      constructor
      · rintro ⟨h1, h2⟩
        exact ⟨Or.inr h1, h2⟩
      · rintro ⟨rfl | h1, h2⟩
        · exact absurd hx h2
        · exact ⟨h1, h2⟩
    · simp only [dedupAux, if_neg hx, List.mem_cons, ih]
      constructor
      · rintro (rfl | ⟨h1, h2⟩)
        · exact ⟨Or.inl rfl, hx⟩
        · exact ⟨Or.inr h1, fun hs => h2 (Or.inr hs)⟩
      · rintro ⟨rfl | h1, h2⟩
        · exact Or.inl rfl
        · by_cases hxa : a = x
          · exact Or.inl hxa
          · exact Or.inr ⟨h1, fun h => h.elim hxa h2⟩

theorem mem_pyListSet {α : Type} [DecidableEq α] (l : List α) (a : α) :
    a ∈ pyListSet l ↔ a ∈ l := by
  simp [pyListSet, mem_dedupAux]

theorem nodup_dedupAux {α : Type} [DecidableEq α] (seen : List α) (l : List α) :
    (dedupAux seen l).Nodup := by
  induction l generalizing seen with
  | nil => simp [dedupAux]
  | cons x xs ih =>
    by_cases hx : x ∈ seen
    · simpa [dedupAux, if_pos hx] using ih seen
    · rw [dedupAux, if_neg hx, List.nodup_cons]
      refine ⟨fun hmem => ?_, ih (x :: seen)⟩
      exact ((mem_dedupAux _ _ _).mp hmem).2 (List.mem_cons_self x seen)

theorem nodup_pyListSet {α : Type} [DecidableEq α] (l : List α) :
    (pyListSet l).Nodup := nodup_dedupAux [] l

theorem mem_parsedNodes_path (f : String × String) (n : Node)
    (h : n ∈ parsedNodes f) : n.path = f.1 := by
  simp only [parsedNodes, List.mem_cons, List.mem_append, List.mem_map] at h
  rcases h with rfl | ⟨c, _, rfl⟩ | ⟨fn, _, rfl⟩ <;> rfl

theorem parseStep_nodes (acc : CCG) (f : String × String) :
    (parseStep acc f).nodes = acc.nodes ++ parsedNodes f := by
  simp [parseStep, parsedNodes]

theorem parseStep_contains (acc : CCG) (f : String × String) :
    (parseStep acc f).edges.contains = acc.edges.contains ++ parsedContains f := by
  simp [parseStep, parsedContains]

theorem parseStep_inherits (acc : CCG) (f : String × String) :
    (parseStep acc f).edges.inherits = acc.edges.inherits := by
  simp [parseStep]

theorem parseStep_calls (acc : CCG) (f : String × String)
    (h : ∀ n ∈ acc.nodes, n.path ≠ f.1) :
    (parseStep acc f).edges.calls = acc.edges.calls ++ parsedCalls f := by
  have hacc : acc.nodes.filter (fun n => n.path = f.1 && n.kind = "function") = [] := by
    rw [List.filter_eq_nil_iff]
    intro n hn
    simp [h n hn]
  have hfns :
      functionsOfFile
        (acc.nodes ++ [Node.mk ("module::" ++ f.1) "module" (pathBaseName f.1) f.1]
          ++ ((pySymbolsRegex f.2 f.1).classes.map fun cls =>
                Node.mk ("class::" ++ f.1 ++ "::" ++ cls) "class" cls f.1)
          ++ ((pySymbolsRegex f.2 f.1).functions.map fun fn =>
                Node.mk ("func::" ++ f.1 ++ "::" ++ fn) "function" fn f.1)) f.1
      = (pySymbolsRegex f.2 f.1).functions.map fun fn =>
          Node.mk ("func::" ++ f.1 ++ "::" ++ fn) "function" fn f.1 := by
    simp only [functionsOfFile, List.filter_append, hacc, List.nil_append, List.filter_map]
    simp [Function.comp_def, List.filter_eq_self]
  simp only [parseStep, hfns, parsedCalls]
  simp [List.map_map, Function.comp_def]

theorem foldl_parseStep_nodes (files : List (String × String)) (acc : CCG) :
    (files.foldl parseStep acc).nodes = acc.nodes ++ files.flatMap parsedNodes := by
  induction files generalizing acc with
  | nil => simp
  | cons f fs ih => simp [ih, parseStep_nodes, List.append_assoc]

theorem foldl_parseStep_contains (files : List (String × String)) (acc : CCG) :
    (files.foldl parseStep acc).edges.contains
      = acc.edges.contains ++ files.flatMap parsedContains := by
  induction files generalizing acc with
  | nil => simp
  | cons f fs ih => simp [ih, parseStep_contains, List.append_assoc]

theorem foldl_parseStep_inherits (files : List (String × String)) (acc : CCG) :
    (files.foldl parseStep acc).edges.inherits = acc.edges.inherits := by
  induction files generalizing acc with
  | nil => simp
  | cons f fs ih => simp [ih, parseStep_inherits]

theorem foldl_parseStep_calls (files : List (String × String)) (acc : CCG)
    (hnd : (files.map Prod.fst).Nodup)
    (hacc : ∀ n ∈ acc.nodes, n.path ∉ files.map Prod.fst) :
    (files.foldl parseStep acc).edges.calls
      = acc.edges.calls ++ files.flatMap parsedCalls := by
  induction files generalizing acc with
  | nil => simp
  | cons f fs ih =>
    have hne : ∀ n ∈ acc.nodes, n.path ≠ f.1 := by
      intro n hn
      have := hacc n hn
      simp only [List.map_cons, List.mem_cons] at this
      exact fun hEq => this (Or.inl hEq)
    have hnd' : (fs.map Prod.fst).Nodup := (List.nodup_cons.mp (by simpa using hnd)).2
    have hfst : f.1 ∉ fs.map Prod.fst := (List.nodup_cons.mp (by simpa using hnd)).1
    have hacc' : ∀ n ∈ (parseStep acc f).nodes, n.path ∉ fs.map Prod.fst := by
      intro n hn
      rw [parseStep_nodes] at hn
      rcases List.mem_append.mp hn with h | h
      · intro hmem
        exact hacc n h (by simp [hmem])
      · rw [mem_parsedNodes_path f n h]
        exact hfst
    simp only [List.foldl_cons, List.flatMap_cons]
    rw [ih (parseStep acc f) hnd' hacc', parseStep_calls acc f hne, List.append_assoc]

theorem parse_nodes_eq (files : List (String × String)) :
    (parsePythonAndJac files).nodes = files.flatMap parsedNodes := by
  simpa [emptyCCG] using foldl_parseStep_nodes files emptyCCG

theorem parse_contains_eq (files : List (String × String)) :
    (parsePythonAndJac files).edges.contains = files.flatMap parsedContains := by
  simpa [emptyCCG] using foldl_parseStep_contains files emptyCCG

theorem parse_inherits_eq (files : List (String × String)) :
    (parsePythonAndJac files).edges.inherits = [] := by
  simpa [emptyCCG] using foldl_parseStep_inherits files emptyCCG

theorem parse_calls_eq (files : List (String × String))
    (hnd : (files.map Prod.fst).Nodup) :
    (parsePythonAndJac files).edges.calls = files.flatMap parsedCalls := by
  simpa [emptyCCG] using foldl_parseStep_calls files emptyCCG hnd (by simp [emptyCCG])

/-! ### Character-class facts and scanner lemmas -/

theorem pyWhite_not_identChar {c : Char} (h : pyWhite c = true) : identChar c = false := by
  simp only [pyWhite, Bool.or_eq_true, decide_eq_true_eq] at h
  rcases h with ((((rfl | rfl) | rfl) | rfl) | rfl) | rfl <;> decide

theorem pyWhite_not_identStart {c : Char} (h : pyWhite c = true) : identStart c = false := by
  have h2 := pyWhite_not_identChar h
  simp only [identChar, Bool.or_eq_false_iff] at h2
  exact h2.1

theorem pyWhite_ne_lparen {c : Char} (h : pyWhite c = true) : (c = '(') = False := by
  simp only [pyWhite, Bool.or_eq_true, decide_eq_true_eq] at h
  rcases h with ((((rfl | rfl) | rfl) | rfl) | rfl) | rfl <;> simp

theorem identStart_identChar {c : Char} (h : identStart c = true) : identChar c = true := by
  simp [identChar, h]

theorem identStart_ne_lparen {c : Char} (h : identStart c = true) : (c = '(') = False := by
  simp only [eq_iff_iff, iff_false]
  rintro rfl
  simp [identStart] at h

theorem identStart_not_pyWhite {c : Char} (h : identStart c = true) : pyWhite c = false := by
  by_contra hw
  rw [Bool.not_eq_false] at hw
  rw [pyWhite_not_identStart hw] at h
  cases h

theorem identChar_ne_colon {c : Char} (h : identChar c = true) : c ≠ ':' := by
  rintro rfl
  simp [identChar, identStart] at h

/-- Once the call scanner is inside an identifier whose remaining
characters are all identifier characters and which is followed directly
by `(`, it emits the full identifier. -/
theorem scanCallsFrom_ident_emits (todo : List Char) :
    ∀ (done post : List Char), (∀ ch ∈ todo, identChar ch = true) →
    (done ++ todo) ∈ scanCallsFrom (.ident done) (todo ++ '(' :: post) := by
  induction todo with
  | nil =>
    intro done post _
    have h1 : identChar '(' = false := by decide
    simp [scanCallsFrom, callNext, h1]
  | cons t ts ih =>
    intro done post hall
    have ht : identChar t = true := hall t (List.mem_cons_self t ts)
    have := ih (done ++ [t]) post (fun ch hch => hall ch (List.mem_cons_of_mem t hch))
    simpa [scanCallsFrom, callNext, ht] using this

/-- From the neutral or post-identifier states, an identifier followed
directly by `(` is emitted. -/
theorem scanCallsFrom_entry_emits (st : CallSt) (c : Char) (ftail post : List Char)
    (hc : identStart c = true) (hall : ∀ ch ∈ ftail, identChar ch = true)
    (hst : st = .start ∨ ∃ acc, st = .afterIdent acc) :
    (c :: ftail) ∈ scanCallsFrom st ((c :: ftail) ++ '(' :: post) := by
  have hmain := scanCallsFrom_ident_emits ftail [c] post hall
  rcases hst with rfl | ⟨acc, rfl⟩
  · simpa [scanCallsFrom, callNext, hc] using hmain
  · simpa [scanCallsFrom, callNext, hc, identStart_not_pyWhite hc,
      identStart_ne_lparen hc] using hmain

/-- Key over-approximation lemma: any identifier that is preceded by a
whitespace character and followed directly by `(` is captured by the
call scan, wherever it sits in the text.  (This covers the identifier of
a `def f(...)` declaration line: the regex has no lookbehind, so the
declaration itself is scanned as a call-shaped reference.) -/
theorem scanCallsFrom_whitespace_ident (pre : List Char) :
    ∀ (st : CallSt) (w c : Char) (ftail post : List Char),
    pyWhite w = true → identStart c = true → (∀ ch ∈ ftail, identChar ch = true) →
    (c :: ftail) ∈ scanCallsFrom st (pre ++ w :: (c :: ftail) ++ '(' :: post) := by
  induction pre with
  | nil =>
    intro st w c ftail post hw hc hall
    have hb : ∀ acc', (c :: ftail) ∈
        scanCallsFrom (CallSt.afterIdent acc') ((c :: ftail) ++ '(' :: post) :=
      fun acc' => scanCallsFrom_entry_emits _ c ftail post hc hall (Or.inr ⟨acc', rfl⟩)
    have hs : (c :: ftail) ∈ scanCallsFrom CallSt.start ((c :: ftail) ++ '(' :: post) :=
      scanCallsFrom_entry_emits _ c ftail post hc hall (Or.inl rfl)
    cases st with
    | start =>
      simpa [scanCallsFrom, callNext, pyWhite_not_identStart hw] using hs
    | ident acc =>
      simpa [scanCallsFrom, callNext, pyWhite_not_identChar hw, pyWhite_ne_lparen hw, hw]
        using hb acc
    | afterIdent acc =>
      simpa [scanCallsFrom, callNext, hw] using hb acc
  | cons p ps ih =>
    intro st w c ftail post hw hc hall
    rcases hcn : callNext st p with ⟨st', o⟩
    have step := ih st' w c ftail post hw hc hall
    cases o with
    | none => simpa [scanCallsFrom, hcn] using step
    | some out => simpa [scanCallsFrom, hcn] using List.mem_cons_of_mem out step

/-- Well-formedness of a declaration-scanner state: a pending
identifier is nonempty and made of identifier characters. -/
def declStOK : DeclSt → Prop
  | .ident acc => acc ≠ [] ∧ ∀ ch ∈ acc, identChar ch = true
  | _ => True

theorem declStOK_midSt (c : Char) : declStOK (midSt c) := by
  unfold midSt
  split <;> trivial

theorem declStOK_kwNext (ks : List Char) : declStOK (kwNext ks) := by
  unfold kwNext
  split <;> trivial

theorem declNext_ok (kw : List Char) (st : DeclSt) (c : Char) (h : declStOK st) :
    declStOK (declNext kw st c).1 ∧
      ∀ out, (declNext kw st c).2 = some out →
        out ≠ [] ∧ ∀ ch ∈ out, identChar ch = true := by
  cases st with
  | ws =>
    simp only [declNext]
    split
    · exact ⟨trivial, fun out hout => by simp at hout⟩
    · cases kw with
      | nil => exact ⟨declStOK_midSt c, fun out hout => by simp at hout⟩
      | cons k ks =>
        simp only []
        split
        · exact ⟨declStOK_kwNext ks, fun out hout => by simp at hout⟩
        · exact ⟨declStOK_midSt c, fun out hout => by simp at hout⟩
  | kw r =>
    simp only [declNext]
    cases r with
    | nil => exact ⟨declStOK_midSt c, fun out hout => by simp at hout⟩
    | cons k ks =>
      simp only []
      split
      · exact ⟨declStOK_kwNext ks, fun out hout => by simp at hout⟩
      · exact ⟨declStOK_midSt c, fun out hout => by simp at hout⟩
  | postKw =>
    simp only [declNext]
    split
    · exact ⟨trivial, fun out hout => by simp at hout⟩
    · exact ⟨declStOK_midSt c, fun out hout => by simp at hout⟩
  | preIdent =>
    simp only [declNext]
    split
    · exact ⟨trivial, fun out hout => by simp at hout⟩
    · split
      · rename_i hws his
        refine ⟨⟨by simp, fun ch hch => ?_⟩, fun out hout => by simp at hout⟩
        rw [List.mem_singleton.mp hch]
        exact identStart_identChar his
      · exact ⟨declStOK_midSt c, fun out hout => by simp at hout⟩
  | ident acc =>
    simp only [declNext]
    split
    · rename_i hic
      refine ⟨⟨by simp, fun ch hch => ?_⟩, fun out hout => by simp at hout⟩
      rcases List.mem_append.mp hch with h1 | h1
      · exact h.2 ch h1
      · rw [List.mem_singleton.mp h1]
        exact hic
    · refine ⟨declStOK_midSt c, fun out hout => ?_⟩
      have : acc = out := by simpa using hout
      exact this ▸ h
  | skip =>
    simp only [declNext]
    exact ⟨declStOK_midSt c, fun out hout => by simp at hout⟩

/-- Every identifier captured by the declaration scan is nonempty and
consists of identifier characters only. -/
theorem scanDeclsFrom_out (kw : List Char) (l : List Char) :
    ∀ (st : DeclSt), declStOK st → ∀ out ∈ scanDeclsFrom kw st l,
      out ≠ [] ∧ ∀ ch ∈ out, identChar ch = true := by
  induction l with
  | nil =>
    intro st hst out hout
    cases st <;> simp only [scanDeclsFrom, List.mem_singleton, List.not_mem_nil] at hout
    subst hout
    exact hst
  | cons c rest ih =>
    intro st hst out hout
    rcases hnx : declNext kw st c with ⟨st', o⟩
    have hok := declNext_ok kw st c hst
    rw [hnx] at hok
    cases o with
    | none =>
      simp only [scanDeclsFrom, hnx] at hout
      exact ih st' hok.1 out hout
    | some emitted =>
      simp only [scanDeclsFrom, hnx, List.mem_cons] at hout
      rcases hout with rfl | hmem
      · exact hok.2 out rfl
      · exact ih st' hok.1 out hmem

/-- Function and class names in `PyInfo` consist of identifier
characters (in particular they contain no `:`), so node identifiers of
the form `kind::path::name` decompose uniquely at the final `::`. -/
theorem pyInfo_functions_chars (src path : String) (fn : String)
    (h : fn ∈ (pySymbolsRegex src path).functions) :
    fn.data ≠ [] ∧ ∀ ch ∈ fn.data, identChar ch = true := by
  simp only [pySymbolsRegex] at h
  rw [mem_pyListSet] at h
  rcases List.mem_map.mp h with ⟨l, hl, rfl⟩
  exact scanDeclsFrom_out _ _ .ws trivial l hl

/-! ### Unique decomposition of node identifiers -/

theorem append_colon_inj (u : List Char) :
    ∀ (v x y : List Char), (∀ ch ∈ u, ch ≠ ':') → (∀ ch ∈ v, ch ≠ ':') →
    u ++ ':' :: x = v ++ ':' :: y → u = v ∧ x = y := by
  induction u with
  | nil =>
    intro v x y _ hv h
    cases v with
    | nil => simpa using h
    | cons b bs =>
      simp only [List.nil_append, List.cons_append, List.cons.injEq] at h
      exact absurd h.1.symm (hv b (List.mem_cons_self b bs))
  | cons a as ih =>
    intro v x y hu hv h
    cases v with
    | nil =>
      simp only [List.cons_append, List.nil_append, List.cons.injEq] at h
      exact absurd h.1 (hu a (List.mem_cons_self a as))
    | cons b bs =>
      simp only [List.cons_append, List.cons.injEq] at h
      obtain ⟨rfl, h2⟩ := h
      obtain ⟨h3, h4⟩ := ih bs x y (fun ch hch => hu ch (List.mem_cons_of_mem a hch))
        (fun ch hch => hv ch (List.mem_cons_of_mem _ hch)) h2
      exact ⟨by rw [h3], h4⟩

/-- Identifiers of shape `kind::path::name` decompose uniquely when the name part
contains no colon (true for all extracted class/function names). -/
theorem tag_path_name_inj (tag p fn p' fn' : String)
    (h1 : ∀ ch ∈ fn.data, ch ≠ ':') (h2 : ∀ ch ∈ fn'.data, ch ≠ ':')
    (h : tag ++ p ++ "::" ++ fn = tag ++ p' ++ "::" ++ fn') :
    p = p' ∧ fn = fn' := by
  have hd := congrArg String.data h
  simp only [String.data_append, List.append_assoc] at hd
  have hd2 : p.data ++ ([':', ':'] ++ fn.data) = p'.data ++ ([':', ':'] ++ fn'.data) :=
    List.append_cancel_left hd
  have hrev := congrArg List.reverse hd2
  simp only [List.reverse_append] at hrev
  have hshape : fn.data.reverse ++ ':' :: (':' :: p.data.reverse)
      = fn'.data.reverse ++ ':' :: (':' :: p'.data.reverse) := by
    simpa using hrev
  obtain ⟨ha, hb⟩ := append_colon_inj fn.data.reverse fn'.data.reverse _ _
    (fun ch hch => h1 ch (List.mem_reverse.mp hch))
    (fun ch hch => h2 ch (List.mem_reverse.mp hch)) hshape
  constructor
  · apply String.ext
    have hp : p.data.reverse = p'.data.reverse := by
      simpa using hb
    simpa using congrArg List.reverse hp
  · apply String.ext
    simpa using congrArg List.reverse ha

/-! ### Diagram rendering: `_mermaid_from_ccg` -/

/-- A node-declaration line `    "x"`. -/
def declLine (x : String) : String := "    \"" ++ x ++ "\""

/-- A solid containment connector `    "s" --> "d"`. -/
def containsLine (s d : String) : String := "    \"" ++ s ++ "\" --> \"" ++ d ++ "\""

/-- A dashed, `calls`-labelled connector `    "s" -.calls.-> "d"`. -/
def callsLine (s d : String) : String := "    \"" ++ s ++ "\" -.calls.-> \"" ++ d ++ "\""

/-- The `contains` loop of `_mermaid_from_ccg`: for each edge, declare
the source and then the destination if not yet shown, then emit the
connector; `shown` is the set of already declared identifiers. -/
def mermaidContains (shown : List String) : List (String × String) → List String
  | [] => []
  | e :: rest =>
    let p1 : List String × List String :=
      if e.1 ∈ shown then ([], shown) else ([declLine e.1], e.1 :: shown)
    let p2 : List String × List String :=
      if e.2 ∈ p1.2 then ([], p1.2) else ([declLine e.2], e.2 :: p1.2)
    p1.1 ++ p2.1 ++ [containsLine e.1 e.2] ++ mermaidContains p2.2 rest

/-- The full line list of `_mermaid_from_ccg`, before joining. -/
def mermaidAllLines (ccg : CCG) : List String :=
  ["```mermaid", "graph LR"]
    ++ mermaidContains [] ccg.edges.contains
    ++ (ccg.edges.calls.map fun e => callsLine e.1 e.2)
    ++ ["```"]

/-- Embedding of `_mermaid_from_ccg`: `"\n".join(lines)`. -/
def mermaidFromCcg (ccg : CCG) : String := String.intercalate "\n" (mermaidAllLines ccg)

/-! ### Document assembly: `render_markdown` -/

/-- The payload dict consumed by `render_markdown`; absent keys are
`none` (Python `payload.get(k, default)`).  The file tree is modelled by
its `items()` list (keys are distinct in a dict). -/
structure Payload : Type where
  repo_url : Option String
  repo_name : Option String
  file_tree : Option (List (String × List String))
  readme_summary : Option String
  ccg : Option CCG

/-- Boolean string order used to model Python `sorted`. -/
def strLeB (a b : String) : Bool := decide (a ≤ b)

/-- The `tree_md` lines: folders in sorted order (the root key `""` is
displayed as `.`), each followed by its files in sorted order.
`sorted(tree.items())` orders by key first; keys are distinct, so the
tie-breaking comparison on values is never reached. -/
def treeMdLines (tree : List (String × List String)) : List String :=
  (tree.mergeSort fun a b => strLeB a.1 b.1).flatMap fun e =>
    ("- **" ++ (if e.1 = "" then "." else e.1) ++ "/**")
      :: ((e.2.mergeSort strLeB).map fun f => "  - " ++ f)

/-- Embedding of `render_markdown`'s f-string (the generation timestamp
`datetime.now().strftime(..)` is passed in as `now`). -/
def renderMarkdown (payload : Payload) (now : String) : String :=
  "# Codebase Genius Documentation: " ++ payload.repo_name.getD ""
    ++ "\n\n**Source:** " ++ payload.repo_url.getD ""
    ++ "\n\n## Overview\n" ++ payload.readme_summary.getD "(No README summary)"
    ++ "\n\n## Repository Structure\n"
    ++ String.intercalate "\n" (treeMdLines (payload.file_tree.getD []))
    ++ "\n\n## API & Relationships (CCG)\nBelow is a high-level graph of modules, their members, and function call edges:\n\n"
    ++ mermaidFromCcg (payload.ccg.getD emptyCCG)
    ++ "\n\n## How to Run\n1. Create a virtualenv and install project deps (see repo README).\n2. Identify entrypoints (main/app modules) from the tree above.\n3. Use the CCG to navigate call paths.\n\n*Generated by Codebase Genius on "
    ++ now ++ "*\n"

/-- Render operation: `render_markdown` also overwrites the `_last_ccg` slot with the
payload's graph (`payload.get("ccg", {})`) before returning the text. -/
def renderOp (_st : Option CCG) (payload : Payload) (now : String) : String × Option CCG :=
  (renderMarkdown payload now, some (payload.ccg.getD emptyCCG))

/-! ### File gathering: `IGNORES` and `_gather_files` -/

/-- The deny-list of directory names. -/
def IGNORES : List String :=
  [".git", "node_modules", "__pycache__", ".venv", "dist", "build", ".mypy_cache"]

/-- Embeds `f.endswith((".py", ".jac"))`. -/
def isSourceFile (f : String) : Bool :=
  ".py".data.isSuffixOf f.data || ".jac".data.isSuffixOf f.data

mutual
/-- A directory entry: a file, or a directory with entries. -/
inductive FSTree : Type where
  | file (name : String) : FSTree
  | dir (name : String) (children : FSList) : FSTree
/-- A list of directory entries. -/
inductive FSList : Type where
  | nil : FSList
  | cons (hd : FSTree) (tl : FSList) : FSList
end

mutual
/-- Embeds `os.walk` with pruning, restricted to one entry: a file contributes
its joined path when its name ends in a configured extension; a
directory is pruned when its name is in `IGNORES` and recursed into
otherwise.  (`os.walk` emits one directory's files before its
subdirectories and leaves the order of siblings to the OS; the theorems
below only use membership, which is order-independent.) -/
def gatherTree (pre : String) : FSTree → List String
  | .file n => if isSourceFile n then [pre ++ "/" ++ n] else []
  | .dir d cs => if d ∈ IGNORES then [] else gatherList (pre ++ "/" ++ d) cs
/-- Embeds `_gather_files` over a list of entries. -/
def gatherList (pre : String) : FSList → List String
  | .nil => []
  | .cons t ts => gatherTree pre t ++ gatherList pre ts
end

/-- Embeds `_gather_files(root)` for a root directory with entries `cs` (the
root directory itself is never checked against `IGNORES`). -/
def gatherFiles (root : String) (cs : FSList) : List String := gatherList root cs

/-- Embeds `parse_python_and_jac(root)` end to end: gather source files under
the root, read each (modelled by `content`, total: the claims proved
against this embedding do not involve unreadable files), and build. -/
def buildGraph (root : String) (cs : FSList) (content : String → String) : CCG :=
  parsePythonAndJac ((gatherFiles root cs).map fun p => (p, content p))

mutual
/-- Predicate `ReachesT pre t q`: file path `q` is reachable from entry `t` under
prefix `pre` through non-denied directories, ending at a file whose name
has a configured source extension. -/
inductive ReachesT : String → FSTree → String → Prop where
  | file (pre n : String) : isSourceFile n = true → ReachesT pre (.file n) (pre ++ "/" ++ n)
  | dir (pre d : String) (cs : FSList) (q : String) :
      d ∉ IGNORES → ReachesL (pre ++ "/" ++ d) cs q → ReachesT pre (.dir d cs) q
/-- Predicate `ReachesL` lifts `ReachesT` to entry lists. -/
inductive ReachesL : String → FSList → String → Prop where
  | head (pre : String) (t : FSTree) (ts : FSList) (q : String) :
      ReachesT pre t q → ReachesL pre (.cons t ts) q
  | tail (pre : String) (t : FSTree) (ts : FSList) (q : String) :
      ReachesL pre ts q → ReachesL pre (.cons t ts) q
end

mutual
theorem mem_gatherTree (pre : String) (t : FSTree) (q : String) :
    q ∈ gatherTree pre t ↔ ReachesT pre t q := by
  cases t with
  | file n =>
    rw [gatherTree]
    by_cases hsrc : isSourceFile n = true
    · rw [if_pos hsrc]
      constructor
      · intro hq
        rw [List.mem_singleton.mp hq]
        exact ReachesT.file pre n hsrc
      · intro hr
        cases hr
        exact List.mem_singleton.mpr rfl
    · rw [if_neg hsrc]
      constructor
      · intro hq
        exact absurd hq (List.not_mem_nil q)
      · intro hr
        cases hr
        exact absurd (by assumption) hsrc
  | dir d cs =>
    rw [gatherTree]
    by_cases hd : d ∈ IGNORES
    · rw [if_pos hd]
      constructor
      · intro hq
        exact absurd hq (List.not_mem_nil q)
      · intro hr
        cases hr
        exact absurd hd (by assumption)
    · rw [if_neg hd]
      rw [mem_gatherList (pre ++ "/" ++ d) cs q]
      constructor
      · intro hr
        exact ReachesT.dir pre d cs q hd hr
      · intro hr
        cases hr
        assumption

theorem mem_gatherList (pre : String) (ts : FSList) (q : String) :
    q ∈ gatherList pre ts ↔ ReachesL pre ts q := by
  cases ts with
  | nil =>
    rw [gatherList]
    constructor
    · intro hq
      exact absurd hq (List.not_mem_nil q)
    · intro hr
      cases hr
  | cons t ts' =>
    rw [gatherList, List.mem_append, mem_gatherTree pre t q, mem_gatherList pre ts' q]
    constructor
    · rintro (h | h)
      · exact ReachesL.head pre t ts' q h
      · exact ReachesL.tail pre t ts' q h
    · intro hr
      cases hr with
      | head _ _ _ _ h => exact Or.inl h
      | tail _ _ _ _ h => exact Or.inr h
end

/-! ### Support lemmas for the claims -/

theorem queryCallsLoop_eq_filter (tgt : String) (l : List (String × String)) :
    queryCallsLoop tgt l = (l.filter fun e => decide (e.2 = tgt)).map Prod.fst := by
  induction l with
  | nil => simp [queryCallsLoop]
  | cons e rest ih =>
    by_cases h : e.2 = tgt
    · simp [queryCallsLoop, h, ih]
    · simp [queryCallsLoop, h, ih]

/-- The class/function node filter of `functionsOfFile`, restricted to
one file's chunk of nodes. -/
theorem filter_parsedNodes_functions (p src : String) :
    (parsedNodes (p, src)).filter (fun n => n.path = p && n.kind = "function")
      = (pySymbolsRegex src p).functions.map fun fn =>
          Node.mk ("func::" ++ p ++ "::" ++ fn) "function" fn p := by
  simp only [parsedNodes, List.filter_cons, List.filter_append, List.filter_map]
  simp [Function.comp_def, List.filter_eq_self]

theorem mem_parsedCalls_shape (f : String × String) (e : String × String)
    (h : e ∈ parsedCalls f) :
    ∃ fn callee, fn ∈ (pySymbolsRegex f.2 f.1).functions
      ∧ callee ∈ (pySymbolsRegex f.2 f.1).calls
      ∧ e = ("func::" ++ f.1 ++ "::" ++ fn, "sym::" ++ callee) := by
  simp only [parsedCalls, List.mem_flatMap, List.mem_map] at h
  obtain ⟨callee, hc, fn, hf, rfl⟩ := h
  exact ⟨fn, callee, hf, hc, rfl⟩

theorem mem_parsedContains_shape (f : String × String) (e : String × String)
    (h : e ∈ parsedContains f) : e.1 = "module::" ++ f.1 := by
  simp only [parsedContains, List.mem_append, List.mem_map] at h
  rcases h with ⟨c, _, rfl⟩ | ⟨fn, _, rfl⟩ <;> rfl

/-- With pairwise distinct paths, every node whose path is `p` comes
from the unique file with path `p`. -/
theorem node_of_path (files : List (String × String)) (p src : String)
    (hnd : (files.map Prod.fst).Nodup) (hmem : (p, src) ∈ files) :
    ∀ n ∈ (parsePythonAndJac files).nodes, n.path = p → n ∈ parsedNodes (p, src) := by
  intro n hn hp
  rw [parse_nodes_eq] at hn
  obtain ⟨f', hf', hnf⟩ := List.mem_flatMap.mp hn
  have hfp : f'.1 = p := by rw [← mem_parsedNodes_path f' n hnf, hp]
  have : f' = (p, src) := by
    apply List.inj_on_of_nodup_map hnd hf' hmem
    simpa using hfp
  exact this ▸ hnf

/-- With pairwise distinct paths, `functionsOfFile` of the built graph
restricted to path `p` is exactly the function-node chunk of the unique
file with path `p`. -/
theorem functionsOfFile_eq (files : List (String × String)) (p src : String)
    (hnd : (files.map Prod.fst).Nodup) (hmem : (p, src) ∈ files) :
    functionsOfFile (parsePythonAndJac files).nodes p
      = (pySymbolsRegex src p).functions.map fun fn =>
          Node.mk ("func::" ++ p ++ "::" ++ fn) "function" fn p := by
  obtain ⟨l1, l2, rfl⟩ := List.append_of_mem hmem
  have hnd' := hnd
  simp only [List.map_append, List.map_cons] at hnd'
  have hp1 : p ∉ l1.map Prod.fst := by
    intro hmem1
    exact (List.nodup_append.mp hnd').2.2 hmem1 (by simp)
  have hp2 : p ∉ l2.map Prod.fst := by
    have := ((List.nodup_append.mp hnd').2.1)
    rw [List.nodup_cons] at this
    exact this.1
  have hside : ∀ (L : List (String × String)), p ∉ L.map Prod.fst →
      (L.flatMap parsedNodes).filter (fun n => n.path = p && n.kind = "function") = [] := by
    intro L hL
    rw [List.filter_eq_nil_iff]
    intro n hn
    obtain ⟨f', hf', hnf⟩ := List.mem_flatMap.mp hn
    have : n.path = f'.1 := mem_parsedNodes_path f' n hnf
    simp only [Bool.and_eq_true, decide_eq_true_eq, not_and]
    intro hp _
    exact hL (List.mem_map.mpr ⟨f', hf', by rw [← this, hp]⟩)
  unfold functionsOfFile
  rw [parse_nodes_eq]
  simp only [List.flatMap_append, List.flatMap_cons, List.filter_append]
  rw [hside l1 hp1, hside l2 hp2, filter_parsedNodes_functions p src]
  simp

/-! ### Quote counting for the rendered diagram lines -/

/-- Number of `"` characters in a string.  Node-declaration lines have
exactly two, connector lines exactly four, fence/header lines zero —
provided the rendered identifiers themselves contain no quote. -/
def quoteCount (s : String) : Nat := s.data.count '"'

theorem quoteCount_append (a b : String) :
    quoteCount (a ++ b) = quoteCount a + quoteCount b := by
  simp [quoteCount, String.data_append, List.count_append]

theorem quoteCount_declLine (x : String) (h : quoteCount x = 0) :
    quoteCount (declLine x) = 2 := by
  have h1 : quoteCount "    \"" = 1 := by decide
  have h2 : quoteCount "\"" = 1 := by decide
  simp [declLine, quoteCount_append, h, h1, h2]

theorem quoteCount_containsLine (s d : String)
    (hs : quoteCount s = 0) (hd : quoteCount d = 0) :
    quoteCount (containsLine s d) = 4 := by
  have h1 : quoteCount "    \"" = 1 := by decide
  have h2 : quoteCount "\" --> \"" = 2 := by decide
  have h3 : quoteCount "\"" = 1 := by decide
  simp [containsLine, quoteCount_append, hs, hd, h1, h2, h3]

theorem quoteCount_callsLine (s d : String)
    (hs : quoteCount s = 0) (hd : quoteCount d = 0) :
    quoteCount (callsLine s d) = 4 := by
  have h1 : quoteCount "    \"" = 1 := by decide
  have h2 : quoteCount "\" -.calls.-> \"" = 2 := by decide
  have h3 : quoteCount "\"" = 1 := by decide
  simp [callsLine, quoteCount_append, hs, hd, h1, h2, h3]

theorem declLine_inj {x y : String} (h : declLine x = declLine y) : x = y := by
  have hd := congrArg String.data h
  simp only [declLine, String.data_append, List.append_assoc] at hd
  have hd2 := List.append_cancel_left hd
  apply String.ext
  have := congrArg List.reverse hd2
  simp only [List.reverse_append] at this
  have h3 := List.append_cancel_left this
  simpa using congrArg List.reverse h3

/-- The declaration lines among the `contains`-loop output are exactly
the first occurrences of the participating identifiers, in edge-list
order (`shown` holds the identifiers declared so far). -/
theorem mermaidContains_decls (edges : List (String × String))
    (h : ∀ e ∈ edges, quoteCount e.1 = 0 ∧ quoteCount e.2 = 0) :
    ∀ shown : List String,
      (mermaidContains shown edges).filter (fun l => decide (quoteCount l = 2))
        = (dedupAux shown (edges.flatMap fun e => [e.1, e.2])).map declLine := by
  induction edges with
  | nil => intro shown; simp [mermaidContains, dedupAux]
  | cons e rest ih =>
    intro shown
    obtain ⟨hq1, hq2⟩ := h e (List.mem_cons_self e rest)
    have hrest := fun e' he' => h e' (List.mem_cons_of_mem e he')
    have hdecl1 : decide (quoteCount (declLine e.1) = 2) = true := by
      simp [quoteCount_declLine e.1 hq1]
    have hdecl2 : decide (quoteCount (declLine e.2) = 2) = true := by
      simp [quoteCount_declLine e.2 hq2]
    have hconn : decide (quoteCount (containsLine e.1 e.2) = 2) = false := by
      simp [quoteCount_containsLine e.1 e.2 hq1 hq2]
    by_cases h1 : e.1 ∈ shown
    · by_cases h2 : e.2 ∈ shown
      · simp only [mermaidContains, List.flatMap_cons, dedupAux, if_pos h1, if_pos h2]
        simp only [List.filter_append, List.filter_cons, hconn, List.filter_nil]
        simpa using ih hrest shown
      · simp only [mermaidContains, List.flatMap_cons, dedupAux, if_pos h1, if_neg h2]
        simp only [List.filter_append, List.filter_cons, hconn, hdecl2, List.filter_nil]
        simpa using ih hrest (e.2 :: shown)
    · have h1' : (e.1 ∈ shown) = False := eq_false h1
      by_cases h2 : e.2 ∈ e.1 :: shown
      · simp only [mermaidContains, List.flatMap_cons, dedupAux, h1', if_false, if_pos h2]
        simp only [List.filter_append, List.filter_cons, hconn, hdecl1, List.filter_nil]
        simpa using ih hrest (e.1 :: shown)
      · simp only [mermaidContains, List.flatMap_cons, dedupAux, h1', if_false, if_neg h2]
        simp only [List.filter_append, List.filter_cons, hconn, hdecl1, hdecl2,
          List.filter_nil]
        simpa using ih hrest (e.2 :: e.1 :: shown)

/-- The connector lines among the `contains`-loop output are exactly one
solid connector per `contains` edge, in edge-list order. -/
theorem mermaidContains_conns (edges : List (String × String))
    (h : ∀ e ∈ edges, quoteCount e.1 = 0 ∧ quoteCount e.2 = 0) :
    ∀ shown : List String,
      (mermaidContains shown edges).filter (fun l => decide (quoteCount l = 4))
        = edges.map fun e => containsLine e.1 e.2 := by
  induction edges with
  | nil => intro shown; simp [mermaidContains]
  | cons e rest ih =>
    intro shown
    obtain ⟨hq1, hq2⟩ := h e (List.mem_cons_self e rest)
    have hrest := fun e' he' => h e' (List.mem_cons_of_mem e he')
    have hdecl1 : decide (quoteCount (declLine e.1) = 4) = false := by
      simp [quoteCount_declLine e.1 hq1]
    have hdecl2 : decide (quoteCount (declLine e.2) = 4) = false := by
      simp [quoteCount_declLine e.2 hq2]
    have hconn : decide (quoteCount (containsLine e.1 e.2) = 4) = true := by
      simp [quoteCount_containsLine e.1 e.2 hq1 hq2]
    by_cases h1 : e.1 ∈ shown
    · by_cases h2 : e.2 ∈ shown
      · simp only [mermaidContains, if_pos h1, if_pos h2]
        simp only [List.filter_append, List.filter_cons, hconn, List.filter_nil]
        simpa using ih hrest shown
      · simp only [mermaidContains, if_pos h1, if_neg h2]
        simp only [List.filter_append, List.filter_cons, hconn, hdecl2, List.filter_nil]
        simpa using ih hrest (e.2 :: shown)
    · have h1' : (e.1 ∈ shown) = False := eq_false h1
      by_cases h2 : e.2 ∈ e.1 :: shown
      · simp only [mermaidContains, h1', if_false, if_pos h2]
        simp only [List.filter_append, List.filter_cons, hconn, hdecl1, List.filter_nil]
        simpa using ih hrest (e.1 :: shown)
      · simp only [mermaidContains, h1', if_false, if_neg h2]
        simp only [List.filter_append, List.filter_cons, hconn, hdecl1, hdecl2,
          List.filter_nil]
        simpa using ih hrest (e.2 :: e.1 :: shown)

/-! ### Ordered containment of document sections -/

/-- Predicate `ContainsInOrder s parts`: the strings `parts` occur inside `s`, in
order and without overlapping. -/
inductive ContainsInOrder : String → List String → Prop where
  | nil (s : String) : ContainsInOrder s []
  | cons (pre p rest : String) (ps : List String) :
      ContainsInOrder rest ps → ContainsInOrder (pre ++ (p ++ rest)) (p :: ps)

theorem cio_step {s : String} (pre p rest : String) {ps : List String}
    (h : s = pre ++ (p ++ rest)) (h2 : ContainsInOrder rest ps) :
    ContainsInOrder s (p :: ps) :=
  h ▸ ContainsInOrder.cons pre p rest ps h2

/-! ### Source invariants for `calls` edges -/

theorem parseStep_calls_mem (acc : CCG) (f : String × String) (e : String × String)
    (h : e ∈ (parseStep acc f).edges.calls) :
    e ∈ acc.edges.calls
      ∨ ∃ n ∈ (parseStep acc f).nodes, n.kind = "function" ∧ n.id = e.1 := by
  simp only [parseStep, List.mem_append, List.mem_flatMap, List.mem_map] at h
  rcases h with h | ⟨callee, _, n, hn, rfl⟩
  · exact Or.inl h
  · obtain ⟨hnn, hpred⟩ := List.mem_filter.mp hn
    simp only [Bool.and_eq_true, decide_eq_true_eq] at hpred
    exact Or.inr ⟨n, by simpa [parseStep] using hnn, hpred.2, rfl⟩

theorem foldl_calls_sources (files : List (String × String)) :
    ∀ acc : CCG,
      (∀ e ∈ acc.edges.calls, ∃ n ∈ acc.nodes, n.kind = "function" ∧ n.id = e.1) →
      ∀ e ∈ (files.foldl parseStep acc).edges.calls,
        ∃ n ∈ (files.foldl parseStep acc).nodes, n.kind = "function" ∧ n.id = e.1 := by
  induction files with
  | nil => intro acc hacc; simpa using hacc
  | cons f fs ih =>
    intro acc hacc
    refine ih (parseStep acc f) ?_
    intro e he
    rcases parseStep_calls_mem acc f e he with h | h
    · obtain ⟨n, hn, hk, hi⟩ := hacc e h
      exact ⟨n, by rw [parseStep_nodes]; exact List.mem_append_left _ hn, hk, hi⟩
    · exact h

/-- Every `calls` edge's source is the id of a function node present in
the graph (the spec's invariant; needs no distinct-path assumption). -/
theorem parse_calls_sources (files : List (String × String)) :
    ∀ e ∈ (parsePythonAndJac files).edges.calls,
      ∃ n ∈ (parsePythonAndJac files).nodes, n.kind = "function" ∧ n.id = e.1 :=
  foldl_calls_sources files emptyCCG (by simp [emptyCCG])

/-- Function nodes carry ids of the shape `func::<path>::<name>`. -/
theorem function_node_shape (files : List (String × String)) :
    ∀ n ∈ (parsePythonAndJac files).nodes, n.kind = "function" →
      ∃ fn, n.id = "func::" ++ n.path ++ "::" ++ fn := by
  intro n hn hk
  rw [parse_nodes_eq] at hn
  obtain ⟨f, _, hnf⟩ := List.mem_flatMap.mp hn
  simp only [parsedNodes, List.mem_cons, List.mem_append, List.mem_map] at hnf
  rcases hnf with rfl | ⟨cls, _, rfl⟩ | ⟨fn, _, rfl⟩
  · simp at hk
  · simp at hk
  · exact ⟨fn, rfl⟩

/-- On a duplicate-free list, filtering for one value yields a list of
length one or zero according to membership. -/
theorem length_filter_eq_of_nodup {l : List String} (hnd : l.Nodup) (name : String) :
    (l.filter fun x => decide (x = name)).length = if name ∈ l then 1 else 0 := by
  induction l with
  | nil => simp
  | cons x xs ih =>
    obtain ⟨hx, hxs⟩ := List.nodup_cons.mp hnd
    by_cases hxn : x = name
    · rw [List.filter_cons, if_pos (by simp [hxn])]
      have hnot : name ∉ xs := hxn ▸ hx
      rw [List.length_cons, ih hxs, if_neg hnot,
        if_pos (List.mem_cons.mpr (Or.inl hxn.symm))]
    · rw [List.filter_cons, if_neg (by simp [hxn]), ih hxs]
      have hiff : (name ∈ x :: xs) ↔ (name ∈ xs) := by
        simp only [List.mem_cons]
        constructor
        · rintro (h | h)
          · exact absurd h.symm hxn
          · exact h
        · exact Or.inr
      simp [hiff]

/-- Files with other paths contribute no node satisfying a predicate
that requires path `p`. -/
theorem filter_flatMap_parsedNodes_ne (L : List (String × String)) (p : String)
    (hL : p ∉ L.map Prod.fst) (pred : Node → Bool)
    (hpred : ∀ n : Node, n.path ≠ p → pred n = false) :
    (L.flatMap parsedNodes).filter pred = [] := by
  rw [List.filter_eq_nil_iff]
  intro n hn
  obtain ⟨f', hf', hnf⟩ := List.mem_flatMap.mp hn
  have hp : n.path = f'.1 := mem_parsedNodes_path f' n hnf
  have : n.path ≠ p := by
    intro hEq
    exact hL (List.mem_map.mpr ⟨f', hf', by rw [← hp, hEq]⟩)
  simp [hpred n this]

/-! ### Claim fixtures -/

/-- The two-file tree of the spec's end-to-end example: `a` contains
`def bar(): foo()` and `class Baz: pass`; `b` is empty. -/
def exampleFiles : List (String × String) :=
  [("r/a.py", "def bar(): foo()\nclass Baz: pass"), ("r/b.py", "")]

/-- A small concrete graph used by witnesses. -/
def exampleCcg : CCG :=
  { nodes := [⟨"module::x.py", "module", "x.py", "x.py"⟩,
              ⟨"func::x.py::a", "function", "a", "x.py"⟩],
    edges := { calls := [("func::x.py::a", "sym::b")],
               inherits := [],
               contains := [("module::x.py", "func::x.py::a")] } }

/-! ### The claims -/

/-- C1, counterexample: the end-to-end example does not yield exactly
one `calls` edge.  The calls regex also matches the declaration
`def bar(` itself, so the file contributes two call references (`bar`
and `foo`) and hence two `calls` edges from `bar`'s function node. -/
theorem claim_C1_counterexample :
    (parsePythonAndJac exampleFiles).edges.calls.length = 2
    ∧ ¬ ((parsePythonAndJac exampleFiles).edges.calls.length = 1) := by decide

/-- C1, amended: building the example two-file tree yields Module nodes
for both files, Class node `Baz`, Function node `bar`, the two claimed
`contains` edges, and exactly TWO `calls` edges — `bar → sym::foo` and
the self-referential `bar → sym::bar` produced by the call-shaped
declaration `def bar(` — while `findCallers "foo"` returns exactly
`[bar's id]` and `findCallers "baz"` returns `[]`. -/
theorem claim_C1_amended :
    (parsePythonAndJac exampleFiles).nodes
      = [⟨"module::r/a.py", "module", "a.py", "r/a.py"⟩,
         ⟨"class::r/a.py::Baz", "class", "Baz", "r/a.py"⟩,
         ⟨"func::r/a.py::bar", "function", "bar", "r/a.py"⟩,
         ⟨"module::r/b.py", "module", "b.py", "r/b.py"⟩]
    ∧ (parsePythonAndJac exampleFiles).edges.contains
      = [("module::r/a.py", "class::r/a.py::Baz"),
         ("module::r/a.py", "func::r/a.py::bar")]
    ∧ (parsePythonAndJac exampleFiles).edges.calls
      = [("func::r/a.py::bar", "sym::bar"), ("func::r/a.py::bar", "sym::foo")]
    ∧ (parsePythonAndJac exampleFiles).edges.inherits = []
    ∧ queryCalls (some (parsePythonAndJac exampleFiles)) "foo" = ["func::r/a.py::bar"]
    ∧ queryCalls (some (parsePythonAndJac exampleFiles)) "baz" = [] := by decide

/-- C4: `findCallers` returns exactly the sources of the `calls` edges
of the queried slot whose destination is the unresolved key
`sym::<name>`, in edge-list order; it returns `[]` when no graph has
been built (`none` slot) or when no edge targets the name; and the
query operation leaves the slot unchanged. -/
theorem claim_C4 (t : String) :
    queryCalls none t = []
    ∧ (∀ g : CCG, queryCalls (some g) t
        = (g.edges.calls.filter fun e => decide (e.2 = "sym::" ++ t)).map Prod.fst)
    ∧ (∀ g : CCG, (∀ e ∈ g.edges.calls, e.2 ≠ "sym::" ++ t) →
        queryCalls (some g) t = [])
    ∧ (∀ st : Option CCG, (queryOp st t).2 = st) := by
  refine ⟨rfl, fun g => ?_, fun g hg => ?_, fun st => rfl⟩
  · simp [queryCalls, queryCallsLoop_eq_filter]
  · simp only [queryCalls, queryCallsLoop_eq_filter]
    have : g.edges.calls.filter (fun e => decide (e.2 = "sym::" ++ t)) = [] := by
      rw [List.filter_eq_nil_iff]
      intro e he
      simpa using hg e he
    simp [this]

/-- C4 witness: querying a graph with one `calls` edge that targets a
different symbol returns the empty list. -/
theorem claim_C4_witness : queryCalls (some exampleCcg) "nosuch" = [] :=
  (claim_C4 "nosuch").2.2.1 exampleCcg (by decide)

/-- C8: the last-graph slot in state-passing form.  `build` writes
exactly the graph it returns into the slot; `render`/`assemble` writes
the payload's graph; the query operation never writes the slot; and a
query after a build is answered against the graph that build produced. -/
theorem claim_C8 :
    (∀ (st : Option CCG) (files : List (String × String)),
        (buildOp st files).2 = some (buildOp st files).1
        ∧ (buildOp st files).1 = parsePythonAndJac files)
    ∧ (∀ (st : Option CCG) (payload : Payload) (now : String),
        (renderOp st payload now).2 = some (payload.ccg.getD emptyCCG)
        ∧ (renderOp st payload now).1 = renderMarkdown payload now)
    ∧ (∀ (st : Option CCG) (t : String), (queryOp st t).2 = st)
    ∧ (∀ (st : Option CCG) (files : List (String × String)) (t : String),
        queryCalls (buildOp st files).2 t
          = queryCalls (some (parsePythonAndJac files)) t) :=
  ⟨fun _ _ => ⟨rfl, rfl⟩, fun _ _ _ => ⟨rfl, rfl⟩, fun _ _ => rfl, fun _ _ _ => rfl⟩

/-- C3: containment completeness.  Every Class or Function node from a
file has a `contains` edge from that file's Module id to its own id;
conversely every `contains` edge's destination is the id of a node in
the node list and its source is the id of a Module node in the node
list. -/
theorem claim_C3 (files : List (String × String)) :
    (∀ n ∈ (parsePythonAndJac files).nodes,
        n.kind = "class" ∨ n.kind = "function" →
        ("module::" ++ n.path, n.id) ∈ (parsePythonAndJac files).edges.contains)
    ∧ (∀ e ∈ (parsePythonAndJac files).edges.contains,
        (∃ n ∈ (parsePythonAndJac files).nodes, n.id = e.2)
        ∧ (∃ m ∈ (parsePythonAndJac files).nodes, m.id = e.1 ∧ m.kind = "module")) := by
  constructor
  · intro n hn hkind
    rw [parse_nodes_eq] at hn
    rw [parse_contains_eq]
    obtain ⟨f, hf, hnf⟩ := List.mem_flatMap.mp hn
    simp only [parsedNodes, List.mem_cons, List.mem_append, List.mem_map] at hnf
    rcases hnf with rfl | ⟨cls, hcls, rfl⟩ | ⟨fn, hfn, rfl⟩
    · rcases hkind with h | h <;> simp at h
    · refine List.mem_flatMap.mpr ⟨f, hf, ?_⟩
      simp only [parsedContains, List.mem_append, List.mem_map]
      exact Or.inl ⟨cls, hcls, rfl⟩
    · refine List.mem_flatMap.mpr ⟨f, hf, ?_⟩
      simp only [parsedContains, List.mem_append, List.mem_map]
      exact Or.inr ⟨fn, hfn, rfl⟩
  · intro e he
    rw [parse_contains_eq] at he
    rw [parse_nodes_eq]
    obtain ⟨f, hf, hef⟩ := List.mem_flatMap.mp he
    simp only [parsedContains, List.mem_append, List.mem_map] at hef
    rcases hef with ⟨cls, hcls, rfl⟩ | ⟨fn, hfn, rfl⟩
    · constructor
      · refine ⟨Node.mk ("class::" ++ f.1 ++ "::" ++ cls) "class" cls f.1,
          List.mem_flatMap.mpr ⟨f, hf, ?_⟩, rfl⟩
        simp only [parsedNodes, List.mem_cons, List.mem_append, List.mem_map]
        exact Or.inr (Or.inl ⟨cls, hcls, rfl⟩)
      · refine ⟨Node.mk ("module::" ++ f.1) "module" (pathBaseName f.1) f.1,
          List.mem_flatMap.mpr ⟨f, hf, ?_⟩, rfl, rfl⟩
        simp [parsedNodes]
    · constructor
      · refine ⟨Node.mk ("func::" ++ f.1 ++ "::" ++ fn) "function" fn f.1,
          List.mem_flatMap.mpr ⟨f, hf, ?_⟩, rfl⟩
        simp only [parsedNodes, List.mem_cons, List.mem_append, List.mem_map]
        exact Or.inr (Or.inr ⟨fn, hfn, rfl⟩)
      · refine ⟨Node.mk ("module::" ++ f.1) "module" (pathBaseName f.1) f.1,
          List.mem_flatMap.mpr ⟨f, hf, ?_⟩, rfl, rfl⟩
        simp [parsedNodes]

/-- C3 witness: in the example build, the Class node `Baz` has its
containment edge from the module of `r/a.py`. -/
theorem claim_C3_witness :
    ("module::" ++ "r/a.py", "class::r/a.py::Baz")
      ∈ (parsePythonAndJac exampleFiles).edges.contains :=
  (claim_C3 exampleFiles).1 ⟨"class::r/a.py::Baz", "class", "Baz", "r/a.py"⟩
    (by decide) (Or.inl rfl)

/-- C5: within-file deduplication.  For the (unique) input file with
path `p`, each distinct class name yields exactly one Class node and
each distinct function name yields exactly one Function node — the node
count for a name is 1 precisely when the raw (pre-`set`) declaration
scan of the file's text mentions it, regardless of how many times it is
declared. -/
theorem claim_C5 (files : List (String × String)) (p src : String)
    (hnd : (files.map Prod.fst).Nodup) (hmem : (p, src) ∈ files) (name : String) :
    ((parsePythonAndJac files).nodes.filter
        (fun n => n.kind = "class" && n.path = p && n.name = name)).length
      = (if name ∈ (scanDeclsFrom "class".data .ws src.data).map String.mk then 1 else 0)
    ∧ ((parsePythonAndJac files).nodes.filter
        (fun n => n.kind = "function" && n.path = p && n.name = name)).length
      = (if name ∈ (scanDeclsFrom "def".data .ws src.data).map String.mk then 1 else 0) := by
  obtain ⟨l1, l2, rfl⟩ := List.append_of_mem hmem
  have hnd' := hnd
  simp only [List.map_append, List.map_cons] at hnd'
  have hp1 : p ∉ l1.map Prod.fst := fun hm => (List.nodup_append.mp hnd').2.2 hm (by simp)
  have hp2 : p ∉ l2.map Prod.fst := (List.nodup_cons.mp (List.nodup_append.mp hnd').2.1).1
  constructor
  · rw [parse_nodes_eq]
    simp only [List.flatMap_append, List.flatMap_cons, List.filter_append]
    rw [filter_flatMap_parsedNodes_ne l1 p hp1 _ (fun n hn => by simp [hn]),
        filter_flatMap_parsedNodes_ne l2 p hp2 _ (fun n hn => by simp [hn])]
    have hmid : (parsedNodes (p, src)).filter
          (fun n => n.kind = "class" && n.path = p && n.name = name)
        = ((pySymbolsRegex src p).classes.filter fun cls => decide (cls = name)).map
            (fun cls => Node.mk ("class::" ++ p ++ "::" ++ cls) "class" cls p) := by
      simp only [parsedNodes, List.filter_cons, List.filter_append, List.filter_map]
      simp [Function.comp_def]
    rw [hmid]
    simp only [List.nil_append, List.append_nil, List.length_map, pySymbolsRegex]
    rw [length_filter_eq_of_nodup (nodup_pyListSet _) name]
    simp [mem_pyListSet]
  · rw [parse_nodes_eq]
    simp only [List.flatMap_append, List.flatMap_cons, List.filter_append]
    rw [filter_flatMap_parsedNodes_ne l1 p hp1 _ (fun n hn => by simp [hn]),
        filter_flatMap_parsedNodes_ne l2 p hp2 _ (fun n hn => by simp [hn])]
    have hmid : (parsedNodes (p, src)).filter
          (fun n => n.kind = "function" && n.path = p && n.name = name)
        = ((pySymbolsRegex src p).functions.filter fun fn => decide (fn = name)).map
            (fun fn => Node.mk ("func::" ++ p ++ "::" ++ fn) "function" fn p) := by
      simp only [parsedNodes, List.filter_cons, List.filter_append, List.filter_map]
      simp [Function.comp_def]
    rw [hmid]
    simp only [List.nil_append, List.append_nil, List.length_map, pySymbolsRegex]
    rw [length_filter_eq_of_nodup (nodup_pyListSet _) name]
    simp [mem_pyListSet]

/-- C5 witness: a file declaring `def f` twice yields exactly one
Function node named `f`. -/
theorem claim_C5_witness :
    ((parsePythonAndJac [("m.py", "def f(): pass\ndef f(): pass")]).nodes.filter
        (fun n => n.kind = "function" && n.path = "m.py" && n.name = "f")).length = 1 := by
  have h := (claim_C5 [("m.py", "def f(): pass\ndef f(): pass")] "m.py"
    "def f(): pass\ndef f(): pass" (by decide) (by decide) "f").2
  rw [if_pos (by decide)] at h
  exact h

/-- C6: deny-list pruning.  A path is gathered precisely when it is
reachable through non-denied directories and names a file with a
configured source extension (so files anywhere under a denied directory
are never gathered); and every node, `contains` edge and `calls` edge of
the built graph originates from a gathered path — denied subtrees
contribute zero nodes and zero edges. -/
theorem claim_C6 (root : String) (cs : FSList) (content : String → String) :
    (∀ q : String, q ∈ gatherFiles root cs ↔ ReachesL root cs q)
    ∧ (∀ n ∈ (buildGraph root cs content).nodes, n.path ∈ gatherFiles root cs)
    ∧ (∀ e ∈ (buildGraph root cs content).edges.contains,
        ∃ p ∈ gatherFiles root cs, e.1 = "module::" ++ p)
    ∧ (∀ e ∈ (buildGraph root cs content).edges.calls,
        ∃ p ∈ gatherFiles root cs, ∃ fn, e.1 = "func::" ++ p ++ "::" ++ fn) := by
  have hnodes : ∀ n ∈ (buildGraph root cs content).nodes, n.path ∈ gatherFiles root cs := by
    intro n hn
    unfold buildGraph at hn
    rw [parse_nodes_eq] at hn
    obtain ⟨f, hf, hnf⟩ := List.mem_flatMap.mp hn
    obtain ⟨q, hq, rfl⟩ := List.mem_map.mp hf
    rw [mem_parsedNodes_path _ _ hnf]
    exact hq
  refine ⟨fun q => mem_gatherList root cs q, hnodes, ?_, ?_⟩
  · intro e he
    unfold buildGraph at he
    rw [parse_contains_eq] at he
    obtain ⟨f, hf, hef⟩ := List.mem_flatMap.mp he
    obtain ⟨q, hq, rfl⟩ := List.mem_map.mp hf
    exact ⟨q, hq, mem_parsedContains_shape _ _ hef⟩
  · intro e he
    obtain ⟨n, hn, hk, hi⟩ := parse_calls_sources _ e he
    obtain ⟨fn, hfn⟩ := function_node_shape _ n hn hk
    exact ⟨n.path, hnodes n hn, fn, by rw [← hi, hfn]⟩

theorem ReachesT_file_eq {pre n q : String} (h : ReachesT pre (FSTree.file n) q) :
    q = pre ++ "/" ++ n := by
  cases h
  rfl

/-- C6 witness: a `.git` directory containing a source-extension file
contributes nothing, while a sibling source file is gathered. -/
theorem claim_C6_witness :
    ("root/.git/steal.py" ∉ gatherFiles "root"
        (.cons (.dir ".git" (.cons (.file "steal.py") .nil)) (.cons (.file "ok.py") .nil)))
    ∧ ("root/ok.py" ∈ gatherFiles "root"
        (.cons (.dir ".git" (.cons (.file "steal.py") .nil)) (.cons (.file "ok.py") .nil))) := by
  have h := (claim_C6 "root"
    (.cons (.dir ".git" (.cons (.file "steal.py") .nil)) (.cons (.file "ok.py") .nil))
    (fun _ => "")).1
  constructor
  · intro hmem
    have hr := (h "root/.git/steal.py").mp hmem
    cases hr with
    | head _ _ _ _ h1 =>
      cases h1 with
      | dir _ _ _ _ hnotin _ => exact hnotin (by decide)
    | tail _ _ _ _ h1 =>
      cases h1 with
      | head _ _ _ _ h2 => exact absurd (ReachesT_file_eq h2) (by decide)
      | tail _ _ _ _ h2 => cases h2
  · exact (h "root/ok.py").mpr
      (ReachesL.tail _ _ _ _ (ReachesL.head _ _ _ _ (ReachesT.file _ _ (by decide))))

/-- C2: call over-approximation.  For the (unique) file with path `p`
whose extraction yields exactly the two function names `f1, f2` and the
single call reference `c`, the graph's `calls` edges whose source is one
of that file's Function nodes are exactly two — one from each Function
node — and both target the unresolved reference `sym::c`. -/
theorem claim_C2 (files : List (String × String)) (p src f1 f2 c : String)
    (hnd : (files.map Prod.fst).Nodup) (hmem : (p, src) ∈ files)
    (hfns : (pySymbolsRegex src p).functions = [f1, f2])
    (hcalls : (pySymbolsRegex src p).calls = [c]) :
    (parsePythonAndJac files).edges.calls.filter
        (fun e => decide (e.1 ∈
          (functionsOfFile (parsePythonAndJac files).nodes p).map Node.id))
      = [("func::" ++ p ++ "::" ++ f1, "sym::" ++ c),
         ("func::" ++ p ++ "::" ++ f2, "sym::" ++ c)] := by
  have hcf1 : ∀ ch ∈ f1.data, ch ≠ ':' := by
    have h := pyInfo_functions_chars src p f1 (by rw [hfns]; simp)
    exact fun ch hch => identChar_ne_colon (h.2 ch hch)
  have hcf2 : ∀ ch ∈ f2.data, ch ≠ ':' := by
    have h := pyInfo_functions_chars src p f2 (by rw [hfns]; simp)
    exact fun ch hch => identChar_ne_colon (h.2 ch hch)
  have hff := functionsOfFile_eq files p src hnd hmem
  rw [hfns] at hff
  have hids : (functionsOfFile (parsePythonAndJac files).nodes p).map Node.id
      = ["func::" ++ p ++ "::" ++ f1, "func::" ++ p ++ "::" ++ f2] := by
    rw [hff]
    simp
  obtain ⟨l1, l2, rfl⟩ := List.append_of_mem hmem
  have hnd' := hnd
  simp only [List.map_append, List.map_cons] at hnd'
  have hp1 : p ∉ l1.map Prod.fst := fun hm => (List.nodup_append.mp hnd').2.2 hm (by simp)
  have hp2 : p ∉ l2.map Prod.fst := (List.nodup_cons.mp (List.nodup_append.mp hnd').2.1).1
  rw [parse_calls_eq _ hnd]
  simp only [List.flatMap_append, List.flatMap_cons, List.filter_append]
  have hside : ∀ L : List (String × String), p ∉ L.map Prod.fst →
      (L.flatMap parsedCalls).filter
        (fun e => decide (e.1 ∈
          (functionsOfFile (parsePythonAndJac (l1 ++ (p, src) :: l2)).nodes p).map Node.id))
        = [] := by
    intro L hL
    rw [List.filter_eq_nil_iff]
    intro e he
    obtain ⟨f', hf', hef⟩ := List.mem_flatMap.mp he
    obtain ⟨fn', callee, hfn', _, rfl⟩ := mem_parsedCalls_shape f' e hef
    have hcf' : ∀ ch ∈ fn'.data, ch ≠ ':' :=
      fun ch hch => identChar_ne_colon
        ((pyInfo_functions_chars f'.2 f'.1 fn' hfn').2 ch hch)
    rw [hids]
    simp only [decide_eq_true_eq, List.mem_cons, List.not_mem_nil, or_false]
    rintro (h | h)
    · obtain ⟨hpp, _⟩ := tag_path_name_inj "func::" f'.1 fn' p f1 hcf' hcf1 h
      exact hL (List.mem_map.mpr ⟨f', hf', hpp⟩)
    · obtain ⟨hpp, _⟩ := tag_path_name_inj "func::" f'.1 fn' p f2 hcf' hcf2 h
      exact hL (List.mem_map.mpr ⟨f', hf', hpp⟩)
  rw [hside l1 hp1, hside l2 hp2]
  have hmid : parsedCalls (p, src)
      = [("func::" ++ p ++ "::" ++ f1, "sym::" ++ c),
         ("func::" ++ p ++ "::" ++ f2, "sym::" ++ c)] := by
    simp only [parsedCalls]
    rw [hfns, hcalls]
    simp
  rw [hmid, hids]
  simp

/-- C2 witness: a file declaring `f` and `g` whose only call-shaped
reference is `h` (written inside a string literal so that neither
declaration is call-shaped) gets exactly two `calls` edges, both
targeting `sym::h`. -/
theorem claim_C2_witness :
    (parsePythonAndJac [("m.py", "def f: pass\ndef g: pass\nx = \"h(\"")]).edges.calls.filter
        (fun e => decide (e.1 ∈
          (functionsOfFile
            (parsePythonAndJac [("m.py", "def f: pass\ndef g: pass\nx = \"h(\"")]).nodes
            "m.py").map Node.id))
      = [("func::" ++ "m.py" ++ "::" ++ "f", "sym::" ++ "h"),
         ("func::" ++ "m.py" ++ "::" ++ "g", "sym::" ++ "h")] :=
  claim_C2 [("m.py", "def f: pass\ndef g: pass\nx = \"h(\"")] "m.py"
    "def f: pass\ndef g: pass\nx = \"h(\"" "f" "g" "h"
    (by decide) (by decide) (by decide) (by decide)

/-- C7: renderer output shape.  The rendered line list opens with the
fence-and-header pair and closes with the fence; among its lines, the
declaration lines (the lines with exactly two quotes) are exactly the
first occurrences, in `contains`-edge-list order, of the identifiers
participating in `contains` edges — each declared exactly once; the
connector lines (four quotes) are exactly one solid connector per
`contains` edge followed by one dashed `calls`-labelled connector per
`calls` edge, in edge order; and a call target not participating in any
`contains` edge is never declared as a node.  The renderer is a pure
projection of its input graph (it is a function of the graph value and
touches no state).  The quote-free side conditions hold for every
identifier the builder produces. -/
theorem claim_C7 (g : CCG)
    (hc : ∀ e ∈ g.edges.contains, quoteCount e.1 = 0 ∧ quoteCount e.2 = 0)
    (hk : ∀ e ∈ g.edges.calls, quoteCount e.1 = 0 ∧ quoteCount e.2 = 0) :
    (mermaidAllLines g).head? = some "```mermaid"
    ∧ (mermaidAllLines g).getLast? = some "```"
    ∧ (mermaidAllLines g).filter (fun l => decide (quoteCount l = 2))
        = (pyListSet (g.edges.contains.flatMap fun e => [e.1, e.2])).map declLine
    ∧ (mermaidAllLines g).filter (fun l => decide (quoteCount l = 4))
        = (g.edges.contains.map fun e => containsLine e.1 e.2)
          ++ (g.edges.calls.map fun e => callsLine e.1 e.2)
    ∧ (∀ d : String, quoteCount d = 0 →
        (∀ e ∈ g.edges.contains, e.1 ≠ d ∧ e.2 ≠ d) →
        declLine d ∉ mermaidAllLines g) := by
  refine ⟨rfl, ?_, ?_, ?_, ?_⟩
  · unfold mermaidAllLines
    exact List.getLast?_concat _
  · unfold mermaidAllLines pyListSet
    simp only [List.filter_append]
    rw [mermaidContains_decls g.edges.contains hc []]
    have h1 : ["```mermaid", "graph LR"].filter (fun l => decide (quoteCount l = 2)) = [] := by
      decide
    have h2 : (g.edges.calls.map fun e => callsLine e.1 e.2).filter
        (fun l => decide (quoteCount l = 2)) = [] := by
      rw [List.filter_eq_nil_iff]
      intro a ha
      obtain ⟨e, he, rfl⟩ := List.mem_map.mp ha
      obtain ⟨hq1, hq2⟩ := hk e he
      simp [quoteCount_callsLine e.1 e.2 hq1 hq2]
    have h3 : ["```"].filter (fun l => decide (quoteCount l = 2)) = [] := by decide
    rw [h1, h2, h3]
    simp
  · unfold mermaidAllLines
    simp only [List.filter_append]
    rw [mermaidContains_conns g.edges.contains hc []]
    have h1 : ["```mermaid", "graph LR"].filter (fun l => decide (quoteCount l = 4)) = [] := by
      decide
    have h2 : (g.edges.calls.map fun e => callsLine e.1 e.2).filter
        (fun l => decide (quoteCount l = 4)) = (g.edges.calls.map fun e => callsLine e.1 e.2) := by
      rw [List.filter_eq_self]
      intro a ha
      obtain ⟨e, he, rfl⟩ := List.mem_map.mp ha
      obtain ⟨hq1, hq2⟩ := hk e he
      simp [quoteCount_callsLine e.1 e.2 hq1 hq2]
    have h3 : ["```"].filter (fun l => decide (quoteCount l = 4)) = [] := by decide
    rw [h1, h2, h3]
    simp
  · intro d hd hno hmem
    have hq2 : quoteCount (declLine d) = 2 := quoteCount_declLine d hd
    unfold mermaidAllLines at hmem
    rcases List.mem_append.mp hmem with hm | hm
    · rcases List.mem_append.mp hm with hm2 | hm2
      · rcases List.mem_append.mp hm2 with hm3 | hm3
        · simp only [List.mem_cons, List.not_mem_nil, or_false] at hm3
          rcases hm3 with h | h <;> rw [h] at hq2 <;> exact absurd hq2 (by decide)
        · have hfil : declLine d ∈ (mermaidContains [] g.edges.contains).filter
              (fun l => decide (quoteCount l = 2)) :=
            List.mem_filter.mpr ⟨hm3, by simp [hq2]⟩
          rw [mermaidContains_decls g.edges.contains hc []] at hfil
          obtain ⟨x, hx, hxe⟩ := List.mem_map.mp hfil
          rw [declLine_inj hxe] at hx
          have hxf := ((mem_dedupAux [] _ d).mp hx).1
          obtain ⟨e, he, hxe2⟩ := List.mem_flatMap.mp hxf
          obtain ⟨hne1, hne2⟩ := hno e he
          simp only [List.mem_cons, List.not_mem_nil, or_false] at hxe2
          rcases hxe2 with rfl | rfl
          · exact hne1 rfl
          · exact hne2 rfl
      · obtain ⟨e, he, hle⟩ := List.mem_map.mp hm2
        obtain ⟨hq1', hq2'⟩ := hk e he
        rw [← hle] at hq2
        rw [quoteCount_callsLine e.1 e.2 hq1' hq2'] at hq2
        exact absurd hq2 (by decide)
    · simp only [List.mem_cons, List.not_mem_nil, or_false] at hm
      rw [hm] at hq2
      exact absurd hq2 (by decide)

/-- C7 witness: the connector lines of a concrete one-edge-each graph. -/
theorem claim_C7_witness :
    (mermaidAllLines exampleCcg).filter (fun l => decide (quoteCount l = 4))
      = (exampleCcg.edges.contains.map fun e => containsLine e.1 e.2)
        ++ (exampleCcg.edges.calls.map fun e => callsLine e.1 e.2) :=
  (claim_C7 exampleCcg (by decide) (by decide)).2.2.2.1

/-- C10, counterexample: the text `"def \ndef f(): pass"` contains the
declaration `def f(` (second line), yet `f` is not among the extracted
function names — the first, dangling `def` matches `^\s*def\s+` with a
`\s+` that spans the newline and captures the second `def` as its
identifier, consuming the anchor of the real declaration — so no
Function node for `f` exists and no self-call edge
`func::m.py::f → sym::f` is emitted.  (The call-reference part of the
claim still holds: `f` is extracted as a call reference.) -/
theorem claim_C10_counterexample :
    ("def \ndef f(): pass" : String).data
        = "def \n".data ++ "def".data ++ ' ' :: ('f' :: []) ++ '(' :: "): pass".data
    ∧ pyWhite ' ' = true ∧ identStart 'f' = true
    ∧ "f" ∈ (pySymbolsRegex "def \ndef f(): pass" "m.py").calls
    ∧ "f" ∉ (pySymbolsRegex "def \ndef f(): pass" "m.py").functions
    ∧ ("func::m.py::f", "sym::f")
        ∉ (parsePythonAndJac [("m.py", "def \ndef f(): pass")]).edges.calls
    ∧ ¬ (∃ n ∈ (parsePythonAndJac [("m.py", "def \ndef f(): pass")]).nodes,
          n.id = "func::m.py::f") := by decide

/-- C10, amended: whenever the file text contains `def` followed by a
whitespace character and an identifier immediately followed by `(`, that
identifier is in the extractor's call-reference set; consequently every
Function node of that file carries a `calls` edge targeting the
unresolved reference for it — and when the identifier is also among the
extracted function names (the unperturbed case), its own Function node
carries the self-call edge. -/
theorem claim_C10_amended (files : List (String × String)) (p src : String)
    (pre post : List Char) (w c : Char) (ftail : List Char)
    (hnd : (files.map Prod.fst).Nodup) (hmem : (p, src) ∈ files)
    (hsplit : src.data = pre ++ "def".data ++ w :: (c :: ftail) ++ '(' :: post)
    (hw : pyWhite w = true) (hc : identStart c = true)
    (hall : ∀ ch ∈ ftail, identChar ch = true) :
    String.mk (c :: ftail) ∈ (pySymbolsRegex src p).calls
    ∧ (∀ n ∈ (parsePythonAndJac files).nodes, n.path = p → n.kind = "function" →
        (n.id, "sym::" ++ String.mk (c :: ftail)) ∈ (parsePythonAndJac files).edges.calls)
    ∧ (String.mk (c :: ftail) ∈ (pySymbolsRegex src p).functions →
        ("func::" ++ p ++ "::" ++ String.mk (c :: ftail),
            "sym::" ++ String.mk (c :: ftail))
          ∈ (parsePythonAndJac files).edges.calls) := by
  have hscan : (c :: ftail) ∈ scanCallsFrom .start src.data := by
    rw [hsplit]
    exact scanCallsFrom_whitespace_ident (pre ++ "def".data) .start w c ftail post hw hc hall
  have hcallmem : String.mk (c :: ftail) ∈ (pySymbolsRegex src p).calls := by
    simp only [pySymbolsRegex]
    rw [mem_pyListSet]
    exact List.mem_map.mpr ⟨c :: ftail, hscan, rfl⟩
  refine ⟨hcallmem, ?_, ?_⟩
  · intro n hn hpath hkind
    have hnode := node_of_path files p src hnd hmem n hn hpath
    simp only [parsedNodes, List.mem_cons, List.mem_append, List.mem_map] at hnode
    rcases hnode with rfl | ⟨cls, hcls, rfl⟩ | ⟨fn, hfn, rfl⟩
    · simp at hkind
    · simp at hkind
    · rw [parse_calls_eq files hnd]
      refine List.mem_flatMap.mpr ⟨(p, src), hmem, ?_⟩
      simp only [parsedCalls, List.mem_flatMap, List.mem_map]
      exact ⟨String.mk (c :: ftail), hcallmem, fn, hfn, rfl⟩
  · intro hfnmem
    rw [parse_calls_eq files hnd]
    refine List.mem_flatMap.mpr ⟨(p, src), hmem, ?_⟩
    simp only [parsedCalls, List.mem_flatMap, List.mem_map]
    exact ⟨String.mk (c :: ftail), hcallmem, String.mk (c :: ftail), hfnmem, rfl⟩

/-- C10 witness: in `def g(): pass`, the declared name `g` is itself a
call reference and its Function node carries the self-call edge. -/
theorem claim_C10_witness :
    String.mk ('g' :: []) ∈ (pySymbolsRegex "def g(): pass" "a.py").calls
    ∧ ("func::" ++ "a.py" ++ "::" ++ String.mk ('g' :: []),
        "sym::" ++ String.mk ('g' :: []))
      ∈ (parsePythonAndJac [("a.py", "def g(): pass")]).edges.calls := by
  have h := claim_C10_amended [("a.py", "def g(): pass")] "a.py" "def g(): pass"
    [] "): pass".data ' ' 'g' [] (by decide) (by decide) (by decide) (by decide)
    (by decide) (by decide)
  exact ⟨h.1, h.2.2 (by decide)⟩

set_option maxRecDepth 8000 in
/-- C9: document assembly.  The assembled Markdown contains, in order:
the title with the repo name, the source URL, the Overview section with
the README text (or the placeholder `(No README summary)` when absent),
the Repository Structure section, the API & Relationships section
header followed by the rendered diagram, the static How to Run
checklist, and the appended generation timestamp.  Folders are rendered
in lexicographically sorted order (a permutation of the input items),
files within each folder likewise, and the root folder key `""` is
displayed as the current-directory marker `.`. -/
theorem claim_C9 (payload : Payload) (now : String) :
    ContainsInOrder (renderMarkdown payload now)
      ["# Codebase Genius Documentation: " ++ payload.repo_name.getD "",
       "**Source:** " ++ payload.repo_url.getD "",
       "## Overview\n" ++ payload.readme_summary.getD "(No README summary)",
       "## Repository Structure\n"
         ++ String.intercalate "\n" (treeMdLines (payload.file_tree.getD [])),
       "## API & Relationships (CCG)",
       mermaidFromCcg (payload.ccg.getD emptyCCG),
       "## How to Run\n1. Create a virtualenv and install project deps (see repo README).\n2. Identify entrypoints (main/app modules) from the tree above.\n3. Use the CCG to navigate call paths.",
       "*Generated by Codebase Genius on " ++ now ++ "*"]
    ∧ (((payload.file_tree.getD []).mergeSort fun a b => strLeB a.1 b.1).map
        Prod.fst).Pairwise (· ≤ ·)
    ∧ ((payload.file_tree.getD []).mergeSort fun a b => strLeB a.1 b.1).Perm
        (payload.file_tree.getD [])
    ∧ (∀ e ∈ (payload.file_tree.getD []).mergeSort fun a b => strLeB a.1 b.1,
        (e.2.mergeSort strLeB).Pairwise (· ≤ ·) ∧ (e.2.mergeSort strLeB).Perm e.2)
    ∧ (∀ fs : List String, ("", fs) ∈ payload.file_tree.getD [] →
        "- **./**" ∈ treeMdLines (payload.file_tree.getD [])) := by
  have hstrans : ∀ a b c : String, strLeB a b = true → strLeB b c = true →
      strLeB a c = true := by
    intro a b c hab hbc
    simp only [strLeB, decide_eq_true_eq] at hab hbc ⊢
    exact le_trans hab hbc
  have hstot : ∀ a b : String, (strLeB a b || strLeB b a) = true := by
    intro a b
    simp only [strLeB, Bool.or_eq_true, decide_eq_true_eq]
    exact le_total a b
  refine ⟨?_, ?_, List.mergeSort_perm _ _, ?_, ?_⟩
  · have e2 : ("\n\n**Source:** " : String) = "\n\n" ++ "**Source:** " := by decide
    have e3 : ("\n\n## Overview\n" : String) = "\n\n" ++ "## Overview\n" := by decide
    have e4 : ("\n\n## Repository Structure\n" : String)
        = "\n\n" ++ "## Repository Structure\n" := by decide
    have e5 : ("\n\n## API & Relationships (CCG)\nBelow is a high-level graph of modules, their members, and function call edges:\n\n" : String)
        = "\n\n" ++ ("## API & Relationships (CCG)"
            ++ "\nBelow is a high-level graph of modules, their members, and function call edges:\n\n") := by
      decide
    have e6 : ("\n\n## How to Run\n1. Create a virtualenv and install project deps (see repo README).\n2. Identify entrypoints (main/app modules) from the tree above.\n3. Use the CCG to navigate call paths.\n\n*Generated by Codebase Genius on " : String)
        = "\n\n" ++ ("## How to Run\n1. Create a virtualenv and install project deps (see repo README).\n2. Identify entrypoints (main/app modules) from the tree above.\n3. Use the CCG to navigate call paths."
            ++ ("\n\n" ++ "*Generated by Codebase Genius on ")) := by
      decide
    have e7 : ("*\n" : String) = "*" ++ "\n" := by decide
    have c8 : ContainsInOrder
        ("\n\n" ++ (("*Generated by Codebase Genius on " ++ now ++ "*") ++ "\n"))
        ["*Generated by Codebase Genius on " ++ now ++ "*"] :=
      ContainsInOrder.cons "\n\n" _ "\n" [] (ContainsInOrder.nil "\n")
    have c7 := ContainsInOrder.cons "\n\n"
      ("## How to Run\n1. Create a virtualenv and install project deps (see repo README).\n2. Identify entrypoints (main/app modules) from the tree above.\n3. Use the CCG to navigate call paths.")
      _ _ c8
    have c6 := ContainsInOrder.cons
      "\nBelow is a high-level graph of modules, their members, and function call edges:\n\n"
      (mermaidFromCcg (payload.ccg.getD emptyCCG)) _ _ c7
    have c5 := ContainsInOrder.cons "\n\n" "## API & Relationships (CCG)" _ _ c6
    have c4 := ContainsInOrder.cons "\n\n"
      ("## Repository Structure\n"
        ++ String.intercalate "\n" (treeMdLines (payload.file_tree.getD []))) _ _ c5
    have c3 := ContainsInOrder.cons "\n\n"
      ("## Overview\n" ++ payload.readme_summary.getD "(No README summary)") _ _ c4
    have c2 := ContainsInOrder.cons "\n\n"
      ("**Source:** " ++ payload.repo_url.getD "") _ _ c3
    have c1 := ContainsInOrder.cons ""
      ("# Codebase Genius Documentation: " ++ payload.repo_name.getD "") _ _ c2
    have heq : renderMarkdown payload now
        = "" ++ (("# Codebase Genius Documentation: " ++ payload.repo_name.getD "")
          ++ ("\n\n" ++ (("**Source:** " ++ payload.repo_url.getD "")
          ++ ("\n\n" ++ (("## Overview\n" ++ payload.readme_summary.getD "(No README summary)")
          ++ ("\n\n" ++ (("## Repository Structure\n"
                ++ String.intercalate "\n" (treeMdLines (payload.file_tree.getD [])))
          ++ ("\n\n" ++ ("## API & Relationships (CCG)"
          ++ ("\nBelow is a high-level graph of modules, their members, and function call edges:\n\n"
          ++ (mermaidFromCcg (payload.ccg.getD emptyCCG)
          ++ ("\n\n" ++ ("## How to Run\n1. Create a virtualenv and install project deps (see repo README).\n2. Identify entrypoints (main/app modules) from the tree above.\n3. Use the CCG to navigate call paths."
          ++ ("\n\n" ++ (("*Generated by Codebase Genius on " ++ now ++ "*")
          ++ "\n"))))))))))))))) := by
      simp only [renderMarkdown, e2, e3, e4, e5, e6, e7, String.append_assoc,
        String.empty_append]
    rw [heq]
    exact c1
  · have hs := @List.sorted_mergeSort (String × List String)
      (fun a b => strLeB a.1 b.1)
      (fun a b c hab hbc => hstrans a.1 b.1 c.1 hab hbc)
      (fun a b => hstot a.1 b.1) (payload.file_tree.getD [])
    rw [List.pairwise_map]
    refine hs.imp ?_
    intro a b h
    simpa [strLeB] using h
  · intro e _
    constructor
    · have hs := @List.sorted_mergeSort String strLeB hstrans hstot e.2
      refine hs.imp ?_
      intro a b h
      simpa [strLeB] using h
    · exact List.mergeSort_perm _ _
  · intro fs hmem
    have hmem2 : ("", fs) ∈ (payload.file_tree.getD []).mergeSort
        (fun a b => strLeB a.1 b.1) :=
      ((List.mergeSort_perm _ _).mem_iff).mpr hmem
    unfold treeMdLines
    refine List.mem_flatMap.mpr ⟨("", fs), hmem2, ?_⟩
    simp
